import Mathlib

/-!
Verification of the model-importer pipeline (`scripts/importer.py`,
`app/database_manager.py`).

The Python code is shallowly embedded: strings are `List Char` (so that
structural recursion and induction are available), filesystem state is passed
explicitly (the set of directory names under the output root, the contents of
the input area), and fallible Python code is embedded as `Except PyExc _`.
Each definition mirrors one Python function and keeps its name.
-/

namespace Importer

/-- Embedded Python strings: a list of characters. -/
abbrev PyStr : Type := List Char

/-- ASCII whitespace recognised by Python's `str.strip()`
(Unicode-only whitespace is not modelled). -/
def isSpc (c : Char) : Bool :=
  c = ' ' || c = '\t' || c = '\n' || c = '\r' || c = '\x0b' || c = '\x0c'

/-- Python `str.strip()`: drop whitespace from both ends. -/
def pyStrip (s : PyStr) : PyStr :=
  ((s.dropWhile isSpc).reverse.dropWhile isSpc).reverse

/-- Python `str.lower()` (ASCII letters; other characters unchanged). -/
def lowerStr (s : PyStr) : PyStr := s.map Char.toLower

/-- Python `str.splitlines()` on `\n`, `\r\n` and `\r`
(the rarer Unicode line separators are not modelled). -/
def splitlines : PyStr → List PyStr
  | [] => []
  | '\r' :: '\n' :: rest => [] :: splitlines rest
  | '\r' :: rest => [] :: splitlines rest
  | '\n' :: rest => [] :: splitlines rest
  | c :: rest =>
    match splitlines rest with
    | [] => [[c]]
    | l :: ls => (c :: l) :: ls

/-- Python `s.split(":", 1)` on a string known to contain a colon:
the pieces before and after the first `':'`. -/
def splitFirstColon : PyStr → PyStr × PyStr
  | [] => ([], [])
  | ':' :: rest => ([], rest)
  | c :: rest =>
    let p := splitFirstColon rest
    (c :: p.1, p.2)

/-- One iteration of the loop in `parse_metadata_from_text`: `none` when the
line is skipped (`continue`), otherwise the trimmed key/value pair. -/
def parseLine (raw : PyStr) : Option (PyStr × PyStr) :=
  let line := pyStrip raw
  if line.isEmpty then none
  else if line.head? != some '#' then none
  else if !(line.contains ':') then none
  else
    let p := splitFirstColon line.tail
    some (pyStrip p.1, pyStrip p.2)

/-- `data[key] = val` on a Python dict represented as an ordered
association list: overwrite in place if present, else append. -/
def upsert (d : List (PyStr × PyStr)) (k v : PyStr) : List (PyStr × PyStr) :=
  if d.any (fun p => p.1 == k) then
    d.map (fun p => if p.1 == k then (k, v) else p)
  else d ++ [(k, v)]

/-- The key/value pairs of the qualifying lines of a metadata text, in order. -/
def metaPairs (text : PyStr) : List (PyStr × PyStr) :=
  (splitlines text).filterMap parseLine

/-- `parse_metadata_from_text` (importer.py): scan lines, keep those that are
non-empty after stripping, start with `#` and contain a colon; split on the
first colon; strip key and value; later duplicate keys overwrite earlier. -/
def parse_metadata_from_text (text : PyStr) : List (PyStr × PyStr) :=
  (metaPairs text).foldl (fun d p => upsert d p.1 p.2) []

/-- `parsed.get(key)` on the ordered-association-list dict. -/
def lookupMeta (d : List (PyStr × PyStr)) (k : PyStr) : Option PyStr :=
  (d.find? (fun p => p.1 == k)).map (·.2)

/-- The value of the last qualifying occurrence of a key in a pair list
(the "last duplicate wins" reading of the spec). -/
def lastVal (pairs : List (PyStr × PyStr)) (k : PyStr) : Option PyStr :=
  (pairs.reverse.find? (fun p => p.1 == k)).map (·.2)

/-- Re-serialize a parsed map as `#Key: Value` lines joined by newlines
(the round-trip serialization named by the spec). -/
def joinLines : List PyStr → PyStr
  | [] => []
  | [l] => l
  | l :: ls => l ++ '\n' :: joinLines ls

def serializeMeta (d : List (PyStr × PyStr)) : PyStr :=
  joinLines (d.map (fun p => '#' :: p.1 ++ ':' :: ' ' :: p.2))

/-- The invariant every pair produced by the parser satisfies: key and value
are stripped, the key holds no colon, and neither holds a line break. -/
def WfPair (p : PyStr × PyStr) : Prop :=
  pyStrip p.1 = p.1 ∧ pyStrip p.2 = p.2 ∧ ':' ∉ p.1 ∧
  '\n' ∉ p.1 ∧ '\r' ∉ p.1 ∧ '\n' ∉ p.2 ∧ '\r' ∉ p.2

/-- Split a string at its last `'.'`: `s = before ++ '.' :: after`
(`none` when there is no dot). -/
def lastDotSplit : PyStr → Option (PyStr × PyStr)
  | [] => none
  | c :: rest =>
    match lastDotSplit rest with
    | some p => some (c :: p.1, p.2)
    | none => if c = '.' then some ([], rest) else none

/-- `pathlib.PurePath.suffix` of a filename: the part from the last dot on,
provided the dot is neither the first nor the last character. -/
def pySuffix (name : PyStr) : PyStr :=
  match lastDotSplit name with
  | some p => if !p.1.isEmpty && !p.2.isEmpty then '.' :: p.2 else []
  | none => []

/-- `pathlib.PurePath.stem` of a filename: the part before the last dot,
provided the dot is neither the first nor the last character. -/
def pyStem (name : PyStr) : PyStr :=
  match lastDotSplit name with
  | some p => if !p.1.isEmpty && !p.2.isEmpty then p.1 else name
  | none => name

/-- Python `s.rsplit('.', 1)[0]`: everything before the last dot
(the whole string when there is no dot). -/
def rsplitBase (s : PyStr) : PyStr :=
  match lastDotSplit s with
  | some p => p.1
  | none => s

def isAlnumChar (c : Char) : Bool :=
  ('a' ≤ c && c ≤ 'z') || ('A' ≤ c && c ≤ 'Z') || ('0' ≤ c && c ≤ '9')

def isDigitChar (c : Char) : Bool := '0' ≤ c && c ≤ '9'

def isSlugChar (c : Char) : Bool :=
  ('A' ≤ c && c ≤ 'Z') || ('a' ≤ c && c ≤ 'z') || ('0' ≤ c && c ≤ '9') ||
  c = '_' || c = '-'

/-- `re.sub(r"\.[a-zA-Z0-9]{1,5}$", "", s)`: remove a trailing extension-like
suffix — a dot followed by one to five alphanumerics at the end of the string.
Only the last dot can start such a match. -/
def stripExt (s : PyStr) : PyStr :=
  match lastDotSplit s with
  | some p =>
    if 1 ≤ p.2.length && p.2.length ≤ 5 && p.2.all isAlnumChar then p.1 else s
  | none => s

/-- `slugify` (importer.py). `none` models Python's `return None` for a falsy
input; otherwise: strip, drop an extension-like suffix, spaces to underscores,
keep only `[A-Za-z0-9_-]`, fall back to `"model"` when empty, truncate to 150. -/
def slugify (name : PyStr) : Option PyStr :=
  if name.isEmpty then none
  else
    let s := pyStrip name
    let s := stripExt s
    let s := s.map (fun c => if c = ' ' then '_' else c)
    let s := s.filter isSlugChar
    let s := if s.isEmpty then "model".toList else s
    some (s.take 150)

/-- The allowed preview extensions (importer.py `PREVIEW_EXTS`). -/
def PREVIEW_EXTS : List PyStr := [".jpg".toList, ".jpeg".toList]

/-- The allowed geometry extensions (importer.py `GEOM_EXTS`). -/
def GEOM_EXTS : List PyStr :=
  [".obj".toList, ".fbx".toList, ".gltf".toList, ".3ds".toList]

/-- The `ext in (".jpg", ".jpeg")` test of `find_preview_file`
(on the lower-cased extension). -/
def isJpgName (f : PyStr) : Bool :=
  lowerStr (pySuffix f) == ".jpg".toList || lowerStr (pySuffix f) == ".jpeg".toList

/-- The `ext == ".png"` test of `find_preview_file`. -/
def isPngName (f : PyStr) : Bool := lowerStr (pySuffix f) == ".png".toList

/-- `find_preview_file` (importer.py): first filename with a `.jpg`/`.jpeg`
extension (lower-cased), else the first with `.png`, else nothing. -/
def find_preview_file (files : List PyStr) : Option PyStr :=
  match files.find? isJpgName with
  | some f => some f
  | none => files.find? isPngName

/-- `find_geometry_file` (importer.py): first filename whose lower-cased
extension is in `GEOM_EXTS`. -/
def find_geometry_file (files : List PyStr) : Option PyStr :=
  files.find? (fun f => GEOM_EXTS.contains (lowerStr (pySuffix f)))

/-- Decimal digit character for a digit value below ten. -/
def digitChar (n : Nat) : Char := Char.ofNat (48 + n)

/-- Fuelled decimal rendering (the fuel bounds the number of digits;
`natDigits` always supplies enough). -/
def natDigitsGo : Nat → Nat → PyStr
  | 0, _ => []
  | fuel + 1, n =>
    if n < 10 then [digitChar n]
    else natDigitsGo fuel (n / 10) ++ [digitChar (n % 10)]

/-- Decimal rendering of a natural number (Python's `f"{i}"`). -/
def natDigits (n : Nat) : PyStr := natDigitsGo (n + 1) n

/-- Decimal value of a digit string (`int(s)` for an all-digit `s`). -/
def digitsVal (s : PyStr) : Nat :=
  s.foldl (fun a c => 10 * a + (c.toNat - 48)) 0

/-- Python `str.isdigit()` for ASCII strings: non-empty and all digits. -/
def pyIsdigit (s : PyStr) : Bool := !s.isEmpty && s.all isDigitChar

/-- First free name in the candidate sequence `cand 0, cand 1, …` with respect
to the names in `taken`; the fuel `taken.length + 1` always suffices because
the candidate sequences used below are injective. -/
def firstFreeGo (cand : Nat → PyStr) (taken : List PyStr) : Nat → Nat → PyStr
  | i, 0 => cand i
  | i, fuel + 1 => if cand i ∈ taken then firstFreeGo cand taken (i + 1) fuel else cand i

def firstFree (cand : Nat → PyStr) (taken : List PyStr) : PyStr :=
  firstFreeGo cand taken 0 (taken.length + 1)

/-- The candidate sequence of `ensure_unique_dir`:
`desired, desired_1, desired_2, …`. -/
def uniqueCand (desired : PyStr) (i : Nat) : PyStr :=
  if i = 0 then desired else desired ++ '_' :: natDigits i

/-- `ensure_unique_dir` (importer.py) over an explicit list of the directory
names existing under the base output directory. -/
def ensure_unique_dir (taken : List PyStr) (desired : PyStr) : PyStr :=
  firstFree (uniqueCand desired) taken

/-- A calendar date as produced by `datetime.strptime(...).date()`. -/
structure PyDate where
  year : Nat
  month : Nat
  day : Nat
deriving DecidableEq, Repr

def isLeapYear (y : Nat) : Bool := y % 4 = 0 && (y % 100 ≠ 0 || y % 400 = 0)

def daysInMonth (y m : Nat) : Nat :=
  if m = 2 then (if isLeapYear y then 29 else 28)
  else if m = 4 || m = 6 || m = 9 || m = 11 then 30
  else 31

/-- Full split on a separator character (Python `s.split(sep)`). -/
def splitOnChar (sep : Char) : PyStr → List PyStr
  | [] => [[]]
  | c :: rest =>
    let r := splitOnChar sep rest
    if c = sep then [] :: r
    else
      match r with
      | [] => [[c]]
      | l :: ls => (c :: l) :: ls

/-- One `datetime.strptime(s, "%d<sep>%m<sep>%Y").date()` attempt: day and
month are one or two digits, the year exactly four, and the triple must be a
real calendar date. -/
def tryFormat (sep : Char) (s : PyStr) : Option PyDate :=
  match splitOnChar sep s with
  | [d, m, y] =>
    if pyIsdigit d && d.length ≤ 2 && pyIsdigit m && m.length ≤ 2 &&
       pyIsdigit y && y.length = 4 then
      let dv := digitsVal d
      let mv := digitsVal m
      let yv := digitsVal y
      if 1 ≤ mv && mv ≤ 12 && 1 ≤ dv && dv ≤ daysInMonth yv mv then
        some ⟨yv, mv, dv⟩
      else none
    else none
  | _ => none

/-- `parse_date` (importer.py): try `%d.%m.%Y`, `%d/%m/%Y`, `%d-%m-%Y` in
order; `none` for empty input or when no format matches. -/
def parse_date (s : PyStr) : Option PyDate :=
  if s.isEmpty then none
  else
    let t := pyStrip s
    (tryFormat '.' t).orElse fun _ => (tryFormat '/' t).orElse fun _ => tryFormat '-' t

/-- Python `str.upper()` (ASCII letters). -/
def upperStr (s : PyStr) : PyStr := s.map Char.toUpper

/-- The exceptions the embedded code can raise. `integrityError` is the
psycopg2 error surfaced by the `UNIQUE` constraint on `Model.model_name`
(database_manager.py schema); `typeError` is raised by CPython itself when an
exception class is constructed with the wrong number of arguments. -/
inductive PyExc where
  | runtimeError (msg : PyStr)
  | typeError
  | valueError (msg : PyStr)
  | unicodeDecodeError
  | integrityError (msg : PyStr)
deriving DecidableEq, Repr

/-- An extracted file: its directory components inside the scratch workspace,
its filename, its text content, and whether it can be opened and decoded as
UTF-8 (`readable = false` models a missing/binary/non-UTF-8 file). -/
structure XFile where
  dirs : List PyStr
  name : PyStr
  content : PyStr
  readable : Bool
deriving DecidableEq, Repr

/-- `try_open` (importer.py). When the `open`/`read` fails, the function
executes `raise UnicodeDecodeError("Failed to open file", path)`; constructing
`UnicodeDecodeError` with two arguments instead of the required five makes
CPython raise a `TypeError` at that `raise` statement, so the exception that
actually surfaces is a `TypeError`, never the intended `UnicodeDecodeError`. -/
def try_open (f : XFile) : Except PyExc PyStr :=
  if f.readable then .ok f.content else .error .typeError

/-- Python truthiness for an optional string: `None` and `""` are falsy. -/
def truthyOpt (o : Option PyStr) : Option PyStr :=
  match o with
  | some s => if s.isEmpty then none else some s
  | none => none

/-- Metadata-file choice in `process_one_zip`: among the `.txt` files, prefer
one whose stem (lower-cased) equals the zip's stem (lower-cased), else take
the first `.txt`. `none` iff there is no `.txt` file. -/
def selectTxt (files : List XFile) (zipStem : PyStr) : Option XFile :=
  let txts := files.filter (fun p => lowerStr (pySuffix p.name) == ".txt".toList)
  match txts.find? (fun p => lowerStr (pyStem p.name) == lowerStr zipStem) with
  | some p => some p
  | none => txts.head?

/-- Geometry resolution in `process_one_zip`: when a truthy hint is given,
an exact filename match wins; otherwise (also when the hint matches nothing)
fall back to `find_geometry_file` over all extracted filenames. -/
def resolveGeometry (files : List XFile) (hint : Option PyStr) : Option PyStr :=
  let fallback := find_geometry_file (files.map (·.name))
  match truthyOpt hint with
  | some g =>
    match files.find? (fun p => p.name == g) with
    | some p => some p.name
    | none => fallback
  | none => fallback

/-- Preview resolution in `process_one_zip`: exact filename match on a truthy
hint, else `find_preview_file` over all extracted filenames. -/
def resolvePreview (files : List XFile) (hint : Option PyStr) : Option PyStr :=
  let fallback := find_preview_file (files.map (·.name))
  match truthyOpt hint with
  | some h =>
    match files.find? (fun p => p.name == h) with
    | some p => some p.name
    | none => fallback
  | none => fallback

/-- The truncated value of a parsed Python float, represented exactly:
`mant` is the concatenated integer-and-fraction digit string and `scale` the
decimal exponent (exponent part minus number of fraction digits). IEEE-754
rounding of extreme values is not modelled; values are kept exact. -/
structure PFloat where
  neg : Bool
  mant : Nat
  scale : Int
deriving DecidableEq, Repr

/-- `int(x)` on a float value: truncation toward zero. -/
def pfTrunc (f : PFloat) : Int :=
  let a : Nat :=
    if 0 ≤ f.scale then f.mant * 10 ^ f.scale.toNat
    else f.mant / 10 ^ (-f.scale).toNat
  if f.neg then -(a : Int) else (a : Int)

/-- Exponent part after `e`/`E`: optional sign then at least one digit,
consuming the whole rest of the string. -/
def parseExp (r : PyStr) : Option Int :=
  let p : Int × PyStr :=
    match r with
    | '+' :: t => (1, t)
    | '-' :: t => (-1, t)
    | t => (1, t)
  if pyIsdigit p.2 then some (p.1 * (digitsVal p.2 : Int)) else none

/-- `float(s)` (as used by `int(float(num_polys))`): strip, optional sign,
digits with optional fraction part (at least one digit overall), optional
exponent. `inf`/`nan` literals and digit-group underscores are not modelled. -/
def pyFloatParse (s : PyStr) : Option PFloat :=
  let t := pyStrip s
  let p : Bool × PyStr :=
    match t with
    | '+' :: r => (false, r)
    | '-' :: r => (true, r)
    | r => (false, r)
  let ip := p.2.takeWhile isDigitChar
  let r1 := p.2.dropWhile isDigitChar
  match r1 with
  | '.' :: r2 =>
    let fp := r2.takeWhile isDigitChar
    let r3 := r2.dropWhile isDigitChar
    if ip.isEmpty && fp.isEmpty then none
    else
      match r3 with
      | [] => some ⟨p.1, digitsVal (ip ++ fp), -(fp.length : Int)⟩
      | c :: r4 =>
        if c = 'e' || c = 'E' then
          (parseExp r4).map (fun e => ⟨p.1, digitsVal (ip ++ fp), e - (fp.length : Int)⟩)
        else none
  | c :: r4 =>
    if ip.isEmpty then none
    else if c = 'e' || c = 'E' then
      (parseExp r4).map (fun e => ⟨p.1, digitsVal ip, e⟩)
    else none
  | [] => if ip.isEmpty then none else some ⟨p.1, digitsVal ip, 0⟩

/-- The `polygon_count` entry of the `model_data` dict:
`int(num_polys) if num_polys and num_polys.isdigit() else
(int(float(num_polys)) if num_polys else None)`. A truthy value that is
neither all digits nor float-parsable makes `float` raise `ValueError`. -/
def polyCount (num : Option PyStr) : Except PyExc (Option Int) :=
  match num with
  | none => .ok none
  | some s =>
    if s.isEmpty then .ok none
    else if pyIsdigit s then .ok (some (digitsVal s : Int))
    else
      match pyFloatParse s with
      | some f => .ok (some (pfTrunc f))
      | none => .error (.valueError "could not convert string to float".toList)

/-- The persistence payload (`model_data` dict / one `Model` row). -/
structure ModelData where
  model_name : PyStr
  format : PyStr
  source_url : Option PyStr
  download_date : Option PyDate
  created_by : Option PyStr
  created_in : Option PyStr
  uploaded_by : Option PyStr
  model_description : Option PyStr
  polygon_count : Option Int
  preview_file : PyStr
deriving DecidableEq, Repr

/-- The collision sequence of the move loop: the initial destination name,
then `base_1suffix, base_2suffix, …` where `base = dest.rsplit('.', 1)[0]`. -/
def collCand (d base suf : PyStr) (k : Nat) : PyStr :=
  if k = 0 then d else base ++ '_' :: natDigits k ++ suf

/-- `while dest_path.exists(): dest_path = f"{base}_{k}{suffix}"; k += 1`,
against the names already moved into the (initially empty) target directory. -/
def resolveCollision (moved : List PyStr) (d suf : PyStr) : PyStr :=
  firstFree (collCand d (rsplitBase d) suf) moved

/-- The `for src in extracted_files` move loop: slugified destination name
with the lower-cased original extension, collision-resolved against the files
already moved; remembers (last match wins) the final name of the file whose
original filename equals the resolved preview's filename. In the source the
match test is `src.resolve() == preview_path.resolve() or src.name ==
preview_path.name`; path equality implies filename equality, so the test
reduces to the filename comparison. `slugify` returning `None` (empty stem)
makes the `None + str` concatenation raise a `TypeError`. -/
def moveLoop (previewName : PyStr) :
    List XFile → List PyStr → Option PyStr → Except PyExc (List PyStr × Option PyStr)
  | [], moved, mp => .ok (moved, mp)
  | src :: rest, moved, mp =>
    match slugify (pyStem src.name) with
    | none => .error .typeError
    | some sl =>
      let suf := lowerStr (pySuffix src.name)
      let dest := resolveCollision moved (sl ++ suf) suf
      moveLoop previewName rest (moved ++ [dest])
        (if src.name == previewName then some dest else mp)

/-- The `RuntimeError` of the post-move sanity check. -/
def previewLostErr : PyExc :=
  .runtimeError "Failed to detect preview file after moving files.".toList

/-- The relocation phase (the `try:` block of `process_one_zip`): move every
extracted file, then — only after all moves completed — fail if no moved file
matched the resolved preview. Returns the moved names and the preview's final
stored name. -/
def relocateFiles (files : List XFile) (previewName : PyStr) :
    Except PyExc (List PyStr × PyStr) :=
  match moveLoop previewName files [] none with
  | .error e => .error e
  | .ok (_, none) => .error previewLostErr
  | .ok (moved, some mp) => .ok (moved, mp)

/-- One input archive: either unreadable by `zipfile` (`BadZipFile` on
extraction) or a list of extracted files. `name` is the zip's filename. -/
inductive Archive where
  | corrupt (name : PyStr)
  | intact (name : PyStr) (files : List XFile)
deriving DecidableEq, Repr

def Archive.name : Archive → PyStr
  | .corrupt n => n
  | .intact n _ => n

/-- `process_one_zip` (importer.py) over an explicit list `dirs` of the
directory names existing under `final_base_dir`. Returns the outcome (target
directory name and persistence payload, or the raised exception) together
with the directory list after the call: the target directory is created after
allocation and removed again (`shutil.rmtree`) when the relocation `try:`
block fails. -/
def process_one_zip (zip : Archive) (dirs : List PyStr) :
    Except PyExc (PyStr × ModelData) × List PyStr :=
  match zip with
  | .corrupt n => (.error (.runtimeError ("Bad zip file: ".toList ++ n)), dirs)
  | .intact n files =>
    if files.isEmpty then
      (.error (.runtimeError ("No files found in zip ".toList ++ n)), dirs)
    else
      match selectTxt files (pyStem n) with
      | none =>
        (.error (.runtimeError ("No metadata .txt found in ".toList ++ n)), dirs)
      | some mf =>
        match try_open mf with
        | .error e => (.error e, dirs)
        | .ok text =>
          let parsed := parse_metadata_from_text text
          let geom_file_name := lookupMeta parsed "GeometryFile".toList
          let preview_hint := lookupMeta parsed "PreviewFile".toList
          let download_format := lookupMeta parsed "DownloadModelFormat".toList
          let num_polys := lookupMeta parsed "NumberOfPolygons".toList
          let download_url := lookupMeta parsed "DownloadedFromURL".toList
          let date_of_download := lookupMeta parsed "DateOfDownload".toList
          let created_by := lookupMeta parsed "CreatedBy".toList
          let created_in := lookupMeta parsed "CreatedIn".toList
          let uploaded_by := lookupMeta parsed "UploadedBy".toList
          let description := lookupMeta parsed "Description".toList
          match resolveGeometry files geom_file_name with
          | none =>
            (.error (.runtimeError ("No geometry file found for ".toList ++ n)), dirs)
          | some geometry_name =>
            match resolvePreview files preview_hint with
            | none =>
              (.error (.runtimeError ("No preview image found (jpg/png) in ".toList ++ n)), dirs)
            | some preview_name =>
              let model_base :=
                match truthyOpt geom_file_name with
                | some g => pyStem g
                | none => pyStem n
              let model_base :=
                if model_base.isEmpty || (pyStrip model_base).isEmpty then
                  (truthyOpt description).getD (pyStem n)
                else model_base
              match slugify model_base with
              | none => (.error .typeError, dirs)
              | some model_name_safe =>
                let target := ensure_unique_dir dirs model_name_safe
                let dirs1 := dirs ++ [target]
                match relocateFiles files preview_name with
                | .error e => (.error e, dirs1.erase target)
                | .ok r =>
                  match polyCount num_polys with
                  | .error e => (.error e, dirs1.erase target)
                  | .ok pc =>
                    let fmt :=
                      match truthyOpt download_format with
                      | some f => f
                      | none => (pySuffix geometry_name).dropWhile (· = '.')
                    let data : ModelData :=
                      { model_name := target
                        format := upperStr fmt
                        source_url := download_url
                        download_date :=
                          match truthyOpt date_of_download with
                          | some ds => parse_date ds
                          | none => none
                        created_by := created_by
                        created_in := created_in
                        uploaded_by := uploaded_by
                        model_description := description
                        polygon_count := pc
                        preview_file := r.2 }
                    (.ok (target, data), dirs1)

/-- `insert_model` (database_manager.py) over the list of `model_name` values
already in the `Model` table: the required-field check from the source, then
the `UNIQUE (model_name)` constraint of the schema (violation surfaces as a
psycopg2 `IntegrityError`); on success the new name is committed. -/
def insert_model (db : List PyStr) (d : ModelData) : Except PyExc (List PyStr) :=
  if d.model_name.isEmpty then
    .error (.valueError "Missing required field: model_name".toList)
  else if d.preview_file.isEmpty then
    .error (.valueError "Missing required field: preview_file".toList)
  else if d.model_name ∈ db then
    .error (.integrityError "duplicate key value violates unique constraint".toList)
  else .ok (db ++ [d.model_name])

/-- The filesystem state the batch loop manipulates: the directory names under
`final_base_dir`, the committed `model_name` rows, and the three areas of the
input directory (`_processed`, `_failed`, and the archives still in place). -/
structure BatchState where
  dirs : List PyStr
  db : List PyStr
  processed : List PyStr
  failed : List PyStr
  pending : List PyStr
deriving DecidableEq, Repr

/-- One iteration of the `for zp in zip_paths` loop of `process_all_zips`:
on success insert the record and move the zip to `_processed`; when the insert
raises, remove the created directory and `continue` (the zip is moved
nowhere); when `process_one_zip` raises, move the zip to `_failed`. -/
def stepZip (st : BatchState) (zp : Archive) : BatchState :=
  match process_one_zip zp st.dirs with
  | (.ok r, dirs1) =>
    match insert_model st.db r.2 with
    | .ok db1 =>
      { st with dirs := dirs1, db := db1,
                processed := st.processed ++ [zp.name],
                pending := st.pending.erase zp.name }
    | .error _ => { st with dirs := dirs1.erase r.1 }
  | (.error _, dirs1) =>
    { st with dirs := dirs1,
              failed := st.failed ++ [zp.name],
              pending := st.pending.erase zp.name }

/-- The batch loop of `process_all_zips` over an already-discovered list of
archives. -/
def process_all_zips (st : BatchState) (zips : List Archive) : BatchState :=
  zips.foldl stepZip st

/-- A directory tree as traversed by `os.walk`: the files of this directory
and the named subdirectories. -/
inductive FsTree where
  | node (files : List PyStr) (subs : List (PyStr × FsTree))

mutual

/-- `os.walk(input_dir)` flattened: every file in the tree together with the
directory components leading to it. -/
def walkFiles : FsTree → List (List PyStr × PyStr)
  | .node files subs =>
    files.map (fun f => (([] : List PyStr), f)) ++ walkSubs subs

def walkSubs : List (PyStr × FsTree) → List (List PyStr × PyStr)
  | [] => []
  | s :: rest =>
    (walkFiles s.2).map (fun p => (s.1 :: p.1, p.2)) ++ walkSubs rest

end

/-- The discovery filter of `process_all_zips`:
`f.lower().endswith(".zip")`. -/
def isZipName (f : PyStr) : Bool := ".zip".toList.isSuffixOf (lowerStr f)

/-- Archive discovery in `process_all_zips`: every file anywhere under the
input directory whose name case-insensitively ends in `.zip`. -/
def discoverZips (t : FsTree) : List (List PyStr × PyStr) :=
  (walkFiles t).filter (fun p => isZipName p.2)

/-! ### Decimal rendering -/

theorem digitChar_toNat {n : Nat} (h : n < 10) : (digitChar n).toNat = 48 + n := by
  interval_cases n <;> decide

theorem digitsVal_append (s : PyStr) (c : Char) :
    digitsVal (s ++ [c]) = 10 * digitsVal s + (c.toNat - 48) := by
  simp [digitsVal, List.foldl_append]

theorem natDigitsGo_val : ∀ fuel n, n < fuel → digitsVal (natDigitsGo fuel n) = n := by
  intro fuel
  induction fuel with
  | zero => intro n h; omega
  | succ fuel ih =>
    intro n h
    by_cases h10 : n < 10
    · simp [natDigitsGo, h10, digitsVal, digitChar_toNat h10]
    · have hpos : 0 < n := by omega
      have hdiv : n / 10 < n := Nat.div_lt_self hpos (by omega)
      have : n / 10 < fuel := by omega
      simp [natDigitsGo, h10, digitsVal_append, ih _ this, digitChar_toNat (Nat.mod_lt n (by omega))]
      omega

theorem digitsVal_natDigits (n : Nat) : digitsVal (natDigits n) = n :=
  natDigitsGo_val (n + 1) n (Nat.lt_succ_self n)

theorem natDigits_inj : Function.Injective natDigits := by
  intro a b h
  have := digitsVal_natDigits a
  rw [h, digitsVal_natDigits] at this
  omega

/-! ### The first-free-name loop (`ensure_unique_dir` and the move-loop
collision handling) -/

theorem firstFreeGo_not_mem (cand : Nat → PyStr) (taken : List PyStr) :
    ∀ fuel i, (∃ j, j ≤ fuel ∧ cand (i + j) ∉ taken) →
      firstFreeGo cand taken i fuel ∉ taken := by
  intro fuel
  induction fuel with
  | zero =>
    intro i ⟨j, hj, hfree⟩
    have : j = 0 := by omega
    subst this
    simpa [firstFreeGo] using hfree
  | succ fuel ih =>
    intro i ⟨j, hj, hfree⟩
    by_cases hmem : cand i ∈ taken
    · have hj0 : j ≠ 0 := by rintro rfl; simp at hfree; exact hfree hmem
      obtain ⟨j', rfl⟩ := Nat.exists_eq_succ_of_ne_zero hj0
      simp only [firstFreeGo, if_pos hmem]
      exact ih (i + 1) ⟨j', by omega, by have := hfree; rwa [show i + 1 + j' = i + (j' + 1) by omega]⟩
    · simp only [firstFreeGo, if_neg hmem]
      exact hmem

theorem firstFreeGo_least (cand : Nat → PyStr) (taken : List PyStr) :
    ∀ fuel i, ∃ k, firstFreeGo cand taken i fuel = cand (i + k) ∧
      ∀ j < k, cand (i + j) ∈ taken := by
  intro fuel
  induction fuel with
  | zero => intro i; exact ⟨0, by simp [firstFreeGo], by omega⟩
  | succ fuel ih =>
    intro i
    by_cases hmem : cand i ∈ taken
    · obtain ⟨k, hk, hleast⟩ := ih (i + 1)
      refine ⟨k + 1, ?_, ?_⟩
      · simpa [firstFreeGo, if_pos hmem, show i + 1 + k = i + (k + 1) by omega] using hk
      · intro j hj
        match j with
        | 0 => simpa using hmem
        | j' + 1 =>
          have := hleast j' (by omega)
          rwa [show i + 1 + j' = i + (j' + 1) by omega] at this
    · exact ⟨0, by simp [firstFreeGo, hmem], by omega⟩

theorem exists_free_cand (cand : Nat → PyStr) (hinj : Function.Injective cand)
    (taken : List PyStr) : ∃ j, j ≤ taken.length ∧ cand j ∉ taken := by
  by_contra hall
  push_neg at hall
  have hsub : ((List.range (taken.length + 1)).map cand) ⊆ taken := by
    intro x hx
    obtain ⟨j, hj, rfl⟩ := List.mem_map.mp hx
    exact hall j (by simpa using Nat.lt_succ_iff.mp (List.mem_range.mp hj))
  have hnd : ((List.range (taken.length + 1)).map cand).Nodup :=
    (List.nodup_range _).map hinj
  have h1 : ((List.range (taken.length + 1)).map cand).toFinset.card =
      taken.length + 1 := by
    rw [List.toFinset_card_of_nodup hnd]; simp
  have h2 : ((List.range (taken.length + 1)).map cand).toFinset ⊆ taken.toFinset := by
    intro x hx
    exact List.mem_toFinset.mpr (hsub (List.mem_toFinset.mp hx))
  have := Finset.card_le_card h2
  have := taken.toFinset_card_le
  omega

theorem firstFree_not_mem (cand : Nat → PyStr) (taken : List PyStr)
    (hinj : Function.Injective cand) : firstFree cand taken ∉ taken := by
  obtain ⟨j, hj, hfree⟩ := exists_free_cand cand hinj taken
  exact firstFreeGo_not_mem cand taken (taken.length + 1) 0 ⟨j, by omega, by simpa using hfree⟩

theorem firstFree_least (cand : Nat → PyStr) (taken : List PyStr) :
    ∃ k, firstFree cand taken = cand k ∧ ∀ j < k, cand j ∈ taken := by
  obtain ⟨k, hk, hleast⟩ := firstFreeGo_least cand taken (taken.length + 1) 0
  exact ⟨k, by simpa using hk, by simpa using hleast⟩

theorem firstFree_of_zero_free (cand : Nat → PyStr) (taken : List PyStr)
    (h : cand 0 ∉ taken) : firstFree cand taken = cand 0 := by
  simp [firstFree, firstFreeGo, h]

theorem natDigits_ne_nil (n : Nat) : natDigits n ≠ [] := by
  unfold natDigits natDigitsGo
  by_cases h : n < 10 <;> simp [h]

theorem uniqueCand_inj (desired : PyStr) : Function.Injective (uniqueCand desired) := by
  intro a b h
  match a, b with
  | 0, 0 => rfl
  | 0, b + 1 =>
    exfalso
    have := congrArg List.length h
    simp [uniqueCand] at this
  | a + 1, 0 =>
    exfalso
    have := congrArg List.length h
    simp [uniqueCand] at this
  | a + 1, b + 1 =>
    simp only [uniqueCand, Nat.succ_ne_zero, if_false, List.append_cancel_left_eq,
      List.cons.injEq, true_and] at h
    exact natDigits_inj h

/-- The returned directory name is always fresh. -/
theorem ensure_unique_dir_not_mem (taken : List PyStr) (desired : PyStr) :
    ensure_unique_dir taken desired ∉ taken :=
  firstFree_not_mem _ _ (uniqueCand_inj desired)

/-- Claim C8: `ensure_unique_dir` returns a name that does not exist in the
base directory at check time; it returns the desired name itself when that is
free; otherwise the first free element of the `_1, _2, …` suffix sequence —
in particular `model_3` when `model`, `model_1` and `model_2` are taken. -/
theorem ensure_unique_dir_spec (taken : List PyStr) (desired : PyStr) :
    ensure_unique_dir taken desired ∉ taken ∧
    (desired ∉ taken → ensure_unique_dir taken desired = desired) ∧
    (∃ i, ensure_unique_dir taken desired = uniqueCand desired i ∧
      ∀ j < i, uniqueCand desired j ∈ taken) ∧
    ensure_unique_dir ["model".toList, "model_1".toList, "model_2".toList]
      "model".toList = "model_3".toList := by
  refine ⟨ensure_unique_dir_not_mem taken desired, ?_, firstFree_least _ _, by decide⟩
  intro hfree
  have : uniqueCand desired 0 = desired := by simp [uniqueCand]
  rw [ensure_unique_dir, firstFree_of_zero_free _ _ (by simpa [this] using hfree), this]

/-- Witness for C8: a fresh desired name is returned unchanged. -/
theorem ensure_unique_dir_spec_witness :
    "fresh".toList ∉ (["model".toList] : List PyStr) ∧
    ensure_unique_dir ["model".toList] "fresh".toList = "fresh".toList :=
  ⟨by decide, (ensure_unique_dir_spec ["model".toList] "fresh".toList).2.1 (by decide)⟩

theorem lastDotSplit_eq : ∀ {s b a : PyStr}, lastDotSplit s = some (b, a) → s = b ++ '.' :: a := by
  intro s
  induction s with
  | nil => intro b a h; simp [lastDotSplit] at h
  | cons c rest ih =>
    intro b a h
    simp only [lastDotSplit] at h
    cases hrest : lastDotSplit rest with
    | some p =>
      rw [hrest] at h
      cases h
      simpa using ih hrest
    | none =>
      rw [hrest] at h
      by_cases hc : c = '.'
      · simp [hc] at h
        obtain ⟨rfl, rfl⟩ := h
        simp [hc]
      · simp [hc] at h

theorem rsplitBase_decomp (d : PyStr) :
    rsplitBase d = d ∨ ∃ a, d = rsplitBase d ++ '.' :: a := by
  cases h : lastDotSplit d with
  | none => left; simp [rsplitBase, h]
  | some p => right; exact ⟨p.2, by simpa [rsplitBase, h] using lastDotSplit_eq (by simpa using h)⟩

theorem collCand_inj (d suf : PyStr) :
    Function.Injective (collCand d (rsplitBase d) suf) := by
  intro a b h
  match a, b with
  | 0, 0 => rfl
  | 0, b + 1 =>
    exfalso
    simp only [collCand, Nat.succ_ne_zero, if_false, if_pos rfl, List.append_assoc,
      List.cons_append] at h
    rcases rsplitBase_decomp d with hd | ⟨t, hd⟩
    · rw [hd] at h
      have := congrArg List.length h
      simp at this
    · have h2 := hd.symm.trans h
      have h3 := List.append_cancel_left h2
      simp at h3
  | a + 1, 0 =>
    exfalso
    simp only [collCand, Nat.succ_ne_zero, if_false, if_pos rfl, List.append_assoc,
      List.cons_append] at h
    rcases rsplitBase_decomp d with hd | ⟨t, hd⟩
    · rw [hd] at h
      have := congrArg List.length h
      simp at this
    · have h2 := hd.symm.trans h.symm
      have h3 := List.append_cancel_left h2
      simp at h3
  | a + 1, b + 1 =>
    simp only [collCand, Nat.succ_ne_zero, if_false, List.append_assoc, List.cons_append,
      List.append_cancel_left_eq, List.cons.injEq, true_and] at h
    exact natDigits_inj (List.append_cancel_right h)

theorem erase_append_fresh {t : PyStr} {dirs : List PyStr} (h : t ∉ dirs) :
    (dirs ++ [t]).erase t = dirs := by
  rw [List.erase_append_right _ h, List.erase_cons_head, List.append_nil]

/-- Structure of `process_one_zip`'s filesystem effect: on an exception the
output-directory list is exactly as before the call (any created directory was
removed); on success exactly the fresh target directory was added. -/
theorem process_one_zip_shape (zip : Archive) (dirs : List PyStr) :
    (∃ e, (process_one_zip zip dirs).1 = .error e ∧ (process_one_zip zip dirs).2 = dirs) ∨
    (∃ t d, (process_one_zip zip dirs).1 = .ok (t, d) ∧
      (process_one_zip zip dirs).2 = dirs ++ [t] ∧ t ∉ dirs) := by
  have hfree : ∀ s, ensure_unique_dir dirs s ∉ dirs :=
    fun s => ensure_unique_dir_not_mem dirs s
  unfold process_one_zip
  dsimp only
  repeat' split
  all_goals
    first
      | exact Or.inl ⟨_, rfl, rfl⟩
      | exact Or.inl ⟨_, rfl, erase_append_fresh (hfree _)⟩
      | exact Or.inr ⟨_, _, rfl, rfl, hfree _⟩

/-! ### Relocation lemmas -/

theorem moveLoop_ok_length (pn : PyStr) :
    ∀ (files : List XFile) (moved : List PyStr) (mp : Option PyStr)
      (moved' : List PyStr) (mp' : Option PyStr),
      moveLoop pn files moved mp = .ok (moved', mp') →
      moved'.length = moved.length + files.length := by
  intro files
  induction files with
  | nil =>
    intro moved mp moved' mp' h
    simp only [moveLoop, Except.ok.injEq, Prod.mk.injEq] at h
    simp [← h.1]
  | cons src rest ih =>
    intro moved mp moved' mp' h
    simp only [moveLoop] at h
    cases hs : slugify (pyStem src.name) with
    | none => rw [hs] at h; cases h
    | some sl =>
      rw [hs] at h
      have := ih _ _ _ _ h
      simp at this ⊢
      omega

theorem moveLoop_error_typeError (pn : PyStr) :
    ∀ (files : List XFile) (moved : List PyStr) (mp : Option PyStr) (e : PyExc),
      moveLoop pn files moved mp = .error e → e = .typeError := by
  intro files
  induction files with
  | nil => intro moved mp e h; simp [moveLoop] at h
  | cons src rest ih =>
    intro moved mp e h
    simp only [moveLoop] at h
    cases hs : slugify (pyStem src.name) with
    | none => rw [hs] at h; cases h; rfl
    | some sl => rw [hs] at h; exact ih _ _ _ h

theorem relocate_previewLost (files : List XFile) (pn : PyStr)
    (h : relocateFiles files pn = .error previewLostErr) :
    ∃ moved, moveLoop pn files [] none = .ok (moved, none) ∧
      moved.length = files.length := by
  unfold relocateFiles at h
  cases hm : moveLoop pn files [] none with
  | error e =>
    rw [hm] at h
    cases h
    have := moveLoop_error_typeError pn files [] none _ hm
    simp [previewLostErr] at this
  | ok r =>
    rw [hm] at h
    obtain ⟨moved, mp⟩ := r
    cases mp with
    | none =>
      exact ⟨moved, rfl, by simpa using moveLoop_ok_length pn files [] none moved none hm⟩
    | some v => cases h

/-- Claim C2: if relocation fails with `PreviewLost` then every single move
had already completed (the check is made only after the loop); and whenever
`process_one_zip` raises — in particular on any relocation failure — the
output-directory listing after the call equals the one before it, so no
partial destination directory survives the call. -/
theorem relocation_preview_check_and_rollback :
    (∀ (files : List XFile) (pn : PyStr),
      relocateFiles files pn = .error previewLostErr →
      ∃ moved, moveLoop pn files [] none = .ok (moved, none) ∧
        moved.length = files.length) ∧
    (∀ (zip : Archive) (dirs : List PyStr) (e : PyExc),
      (process_one_zip zip dirs).1 = .error e →
      (process_one_zip zip dirs).2 = dirs) := by
  refine ⟨relocate_previewLost, ?_⟩
  intro zip dirs e h
  rcases process_one_zip_shape zip dirs with ⟨e', _, h2⟩ | ⟨t, d, h1, _, _⟩
  · exact h2
  · rw [h1] at h; cases h

/-- Witness for C2: a relocation run whose file list misses the resolved
preview fails with `PreviewLost` after moving the one file, and a failing
`process_one_zip` call (corrupt archive) leaves the directory list intact. -/
theorem relocation_preview_check_and_rollback_witness :
    relocateFiles [⟨[], "cube.obj".toList, [], true⟩] "cube.jpg".toList =
      .error previewLostErr ∧
    (∃ moved, moveLoop "cube.jpg".toList [⟨[], "cube.obj".toList, [], true⟩] [] none =
      .ok (moved, none) ∧ moved.length = 1) ∧
    (process_one_zip (.corrupt "b.zip".toList) ["d".toList]).1 =
      .error (.runtimeError "Bad zip file: b.zip".toList) ∧
    (process_one_zip (.corrupt "b.zip".toList) ["d".toList]).2 = ["d".toList] :=
  ⟨rfl,
   relocation_preview_check_and_rollback.1 _ _ rfl,
   rfl,
   relocation_preview_check_and_rollback.2 (.corrupt "b.zip".toList) ["d".toList]
     (.runtimeError "Bad zip file: b.zip".toList) rfl⟩

/-- Claim C1: when `process_one_zip` succeeds but the subsequent
`insert_model` raises, the batch step removes the directory created during
relocation, moves the archive to neither the processed nor the failed area
(the whole batch state is exactly as before), and the loop continues with the
remaining archives. -/
theorem persist_failure_rollback (st : BatchState) (zp : Archive) (t : PyStr)
    (d : ModelData) (e : PyExc) (zps : List Archive)
    (hp : (process_one_zip zp st.dirs).1 = .ok (t, d))
    (hi : insert_model st.db d = .error e) :
    stepZip st zp = st ∧ t ∉ st.dirs ∧
    process_all_zips st (zp :: zps) = process_all_zips (stepZip st zp) zps := by
  rcases process_one_zip_shape zp st.dirs with ⟨e', h1, _⟩ | ⟨t', d', h1, h2, h3⟩
  · rw [hp] at h1; cases h1
  · rw [hp] at h1
    simp only [Except.ok.injEq, Prod.mk.injEq] at h1
    obtain ⟨rfl, rfl⟩ := h1
    have hpair : process_one_zip zp st.dirs = (.ok (t, d), st.dirs ++ [t]) := by
      rw [← hp, ← h2]
    refine ⟨?_, h3, rfl⟩
    simp only [stepZip, hpair, hi]
    rw [erase_append_fresh h3]

/-- Witness for C1: an archive that fully relocates to directory `m`, whose
record insert then hits the `UNIQUE (model_name)` constraint; the batch state
is exactly as before the step (directory gone, archive still pending). -/
theorem persist_failure_rollback_witness :
    stepZip ⟨[], ["m".toList], [], [], ["m.zip".toList]⟩
        (.intact "m.zip".toList
          [⟨[], "m.txt".toList, [], true⟩, ⟨[], "x.obj".toList, [], true⟩,
           ⟨[], "p.jpg".toList, [], true⟩]) =
      ⟨[], ["m".toList], [], [], ["m.zip".toList]⟩ ∧
    "m".toList ∉ ([] : List PyStr) :=
  have h := persist_failure_rollback ⟨[], ["m".toList], [], [], ["m.zip".toList]⟩
    (.intact "m.zip".toList
      [⟨[], "m.txt".toList, [], true⟩, ⟨[], "x.obj".toList, [], true⟩,
       ⟨[], "p.jpg".toList, [], true⟩])
    "m".toList
    ⟨"m".toList, "OBJ".toList, none, none, none, none, none, none, none, "p.jpg".toList⟩
    (.integrityError "duplicate key value violates unique constraint".toList)
    [] rfl rfl
  ⟨h.1, h.2.1⟩

/-- Claim C3: a corrupt archive surfaces as the specific "Bad zip file"
`RuntimeError` (not a generic I/O failure), is routed to the failed area, and
the batch loop simply continues with the remaining archives; nothing escapes
the loop. -/
theorem corrupt_zip_isolated (st : BatchState) (n : PyStr) (zps : List Archive) :
    (process_one_zip (.corrupt n) st.dirs).1 =
      .error (.runtimeError ("Bad zip file: ".toList ++ n)) ∧
    stepZip st (.corrupt n) =
      { st with failed := st.failed ++ [n], pending := st.pending.erase n } ∧
    (stepZip st (.corrupt n)).processed = st.processed ∧
    (stepZip st (.corrupt n)).dirs = st.dirs ∧
    process_all_zips st (.corrupt n :: zps) =
      process_all_zips (stepZip st (.corrupt n)) zps :=
  ⟨rfl, rfl, rfl, rfl, rfl⟩

/-- Claim C10: an unreadable (non-UTF-8) metadata file makes `try_open` raise
a `TypeError` — the two-argument `UnicodeDecodeError` construction itself
fails — so the archive's processing aborts and the batch loop routes the
archive to the failed area; it is never silently tolerated. -/
theorem unreadable_metadata_aborts :
    (∀ f : XFile, f.readable = false → try_open f = .error .typeError) ∧
    (∀ (st : BatchState) (n : PyStr) (files : List XFile) (mf : XFile),
      files.isEmpty = false → selectTxt files (pyStem n) = some mf →
      mf.readable = false →
      (process_one_zip (.intact n files) st.dirs).1 = .error .typeError ∧
      stepZip st (.intact n files) =
        { st with failed := st.failed ++ [n], pending := st.pending.erase n }) := by
  constructor
  · intro f h
    simp [try_open, h]
  · intro st n files mf hne hsel hr
    have hproc : process_one_zip (.intact n files) st.dirs = (.error .typeError, st.dirs) := by
      simp [process_one_zip, hne, hsel, try_open, hr]
    constructor
    · rw [hproc]
    · unfold stepZip
      rw [hproc]
      simp [Archive.name]

/-- Witness for C10: a concrete archive whose only `.txt` file is not UTF-8
decodable aborts with `TypeError` and lands in the failed area. -/
theorem unreadable_metadata_aborts_witness :
    (process_one_zip (.intact "m.zip".toList [⟨[], "m.txt".toList, [], false⟩])
        (⟨[], [], [], [], ["m.zip".toList]⟩ : BatchState).dirs).1 =
      .error .typeError ∧
    stepZip ⟨[], [], [], [], ["m.zip".toList]⟩
        (.intact "m.zip".toList [⟨[], "m.txt".toList, [], false⟩]) =
      ⟨[], [], [], ["m.zip".toList], []⟩ :=
  unreadable_metadata_aborts.2 ⟨[], [], [], [], ["m.zip".toList]⟩ "m.zip".toList
    [⟨[], "m.txt".toList, [], false⟩] ⟨[], "m.txt".toList, [], false⟩ rfl rfl rfl

/-! ### Slugifier (claim C5) -/

/-- Counterexample to claim C5 as stated: on the empty string `slugify`
returns `None` (the embedded `none`), not the fallback string `"model"` —
the guard `if not name: return None` fires before any fallback. -/
theorem slugify_empty_counterexample :
    slugify [] = none ∧ slugify [] ≠ some ("model".toList) := by
  exact ⟨rfl, by decide⟩

/-- Reduction of `slugify` on non-empty input to its normalisation pipeline. -/
theorem slugify_eq_of_ne_nil (s : PyStr) (hs : s ≠ []) :
    slugify s = some ((if (((stripExt (pyStrip s)).map
        (fun c => if c = ' ' then '_' else c)).filter isSlugChar).isEmpty
      then "model".toList
      else ((stripExt (pyStrip s)).map
        (fun c => if c = ' ' then '_' else c)).filter isSlugChar).take 150) := by
  have hse : s.isEmpty = false := by
    cases s with
    | nil => exact absurd rfl hs
    | cons c t => rfl
  simp only [slugify, hse, Bool.false_eq_true, if_false]

/-- Claim C5 (amended): for every NON-empty input, `slugify` returns a
non-empty string over `[A-Za-z0-9_-]` of length at most 150, and returns the
fallback literal `"model"` exactly when the normalised input has no valid
character left; on the empty input it returns no string at all (`None`). -/
theorem slugify_amended (s : PyStr) (hs : s ≠ []) :
    ∃ t, slugify s = some t ∧ t ≠ [] ∧ t.length ≤ 150 ∧
      (∀ c ∈ t, isSlugChar c = true) ∧
      ((((stripExt (pyStrip s)).map
          (fun c => if c = ' ' then '_' else c)).filter isSlugChar) = [] →
        t = "model".toList) := by
  rw [slugify_eq_of_ne_nil s hs]
  set base := ((stripExt (pyStrip s)).map
    (fun c => if c = ' ' then '_' else c)).filter isSlugChar with hbase
  by_cases hb : base = []
  · refine ⟨"model".toList, ?_, by decide, by decide, by decide, fun _ => ?_⟩
    · rw [hb]
      decide
    · rfl
  · have hbe : base.isEmpty = false := by
      cases hb' : base with
      | nil => exact absurd hb' hb
      | cons c t => rfl
    refine ⟨base.take 150, by rw [hbe]; simp, ?_, ?_, ?_, fun h => absurd h hb⟩
    · intro htake
      rcases List.take_eq_nil_iff.mp htake with h | h
      · exact absurd h (by norm_num)
      · exact hb h
    · simp [List.length_take]
    · intro c hc
      have hcb : c ∈ base := List.take_subset _ _ hc
      exact (List.mem_filter.mp hcb).2

/-- Witness for C5 (amended): a concrete non-empty input. -/
theorem slugify_amended_witness :
    ("My Model v2.obj".toList ≠ ([] : PyStr)) ∧
    ∃ t, slugify "My Model v2.obj".toList = some t ∧ t ≠ [] ∧ t.length ≤ 150 ∧
      (∀ c ∈ t, isSlugChar c = true) ∧
      ((((stripExt (pyStrip "My Model v2.obj".toList)).map
          (fun c => if c = ' ' then '_' else c)).filter isSlugChar) = [] →
        t = "model".toList) :=
  ⟨by decide, slugify_amended "My Model v2.obj".toList (by decide)⟩

/-! ### Polygon count (claim C4) -/

/-- Counterexample to claim C4 as stated: the metadata value `"abc"` is
neither all digits nor float-parsable, so `int(float("abc"))` raises
`ValueError` — building the record is NOT exception-free on malformed
numeric fields. -/
theorem polyCount_abc_counterexample :
    polyCount (some "abc".toList) =
      .error (.valueError "could not convert string to float".toList) := rfl

/-- Claim C4 (amended): a missing or empty value leaves the polygon count
unset; an all-digits value is used as the parsed integer; any other value
that parses as a float is truncated toward zero; and any remaining non-empty
value makes the record construction raise `ValueError`. -/
theorem polyCount_amended :
    polyCount none = .ok none ∧
    polyCount (some []) = .ok none ∧
    (∀ s, pyIsdigit s = true →
      polyCount (some s) = .ok (some (digitsVal s : Int))) ∧
    (∀ s f, pyIsdigit s = false → pyFloatParse s = some f →
      polyCount (some s) = .ok (some (pfTrunc f))) ∧
    (∀ s, s ≠ [] → pyIsdigit s = false → pyFloatParse s = none →
      polyCount (some s) =
        .error (.valueError "could not convert string to float".toList)) := by
  refine ⟨rfl, rfl, ?_, ?_, ?_⟩
  · intro s h
    have hne : s.isEmpty = false := by
      cases s with
      | nil => simp [pyIsdigit] at h
      | cons c t => rfl
    simp [polyCount, hne, h]
  · intro s f hd hf
    by_cases hne : s.isEmpty
    · have hsnil : s = [] := by simpa using hne
      subst hsnil
      rw [show pyFloatParse [] = none from rfl] at hf
      cases hf
    · simp [polyCount, hne, hd, hf]
  · intro s hne hd hf
    have hne' : s.isEmpty = false := by
      cases s with
      | nil => exact absurd rfl hne
      | cons c t => rfl
    simp [polyCount, hne', hd, hf]

/-- Witness for C4 (amended): the digits branch on `"12"` and the
float-truncation branch on `"12.5"` (value 12.5, truncated to 12). -/
theorem polyCount_amended_witness :
    (pyIsdigit "12".toList = true ∧ polyCount (some "12".toList) = .ok (some 12)) ∧
    (pyIsdigit "12.5".toList = false ∧
      pyFloatParse "12.5".toList = some ⟨false, 125, -1⟩ ∧
      polyCount (some "12.5".toList) = .ok (some 12)) := by
  refine ⟨⟨rfl, ?_⟩, rfl, rfl, ?_⟩
  · rw [polyCount_amended.2.2.1 "12".toList rfl]
    rfl
  · rw [polyCount_amended.2.2.2.1 "12.5".toList ⟨false, 125, -1⟩ rfl rfl]
    rfl

/-! ### Preview resolution (claim C6) -/

/-- Claim C6: an exact filename match on the hint wins; the fallback returns a
JPEG-extension file whenever one exists anywhere in the list (so JPEG beats
PNG regardless of order), else a PNG file, else nothing; and an archive whose
preview resolution yields nothing fails with the fatal "No preview image"
error. -/
theorem preview_resolution_spec :
    (∀ (files : List XFile) (h : PyStr), h ≠ [] →
      (∃ p ∈ files, p.name = h) → resolvePreview files (some h) = some h) ∧
    (∀ files : List PyStr, (∃ f ∈ files, isJpgName f = true) →
      ∃ g, find_preview_file files = some g ∧ isJpgName g = true) ∧
    (∀ files : List PyStr, (∀ f ∈ files, isJpgName f = false) →
      (∃ f ∈ files, isPngName f = true) →
      ∃ g, find_preview_file files = some g ∧ isPngName g = true) ∧
    (∀ files : List PyStr, (∀ f ∈ files, isJpgName f = false) →
      (∀ f ∈ files, isPngName f = false) → find_preview_file files = none) ∧
    (∀ (st : BatchState) (n : PyStr) (files : List XFile) (mf : XFile) (g : PyStr),
      files.isEmpty = false →
      selectTxt files (pyStem n) = some mf → mf.readable = true →
      resolveGeometry files
        (lookupMeta (parse_metadata_from_text mf.content) "GeometryFile".toList) =
        some g →
      resolvePreview files
        (lookupMeta (parse_metadata_from_text mf.content) "PreviewFile".toList) =
        none →
      (process_one_zip (.intact n files) st.dirs).1 =
        .error (.runtimeError ("No preview image found (jpg/png) in ".toList ++ n))) := by
  refine ⟨?_, ?_, ?_, ?_, ?_⟩
  · intro files h hne ⟨p, hp, hname⟩
    have hemp : h.isEmpty = false := by
      cases h with
      | nil => exact absurd rfl hne
      | cons c t => rfl
    have hsome : (files.find? (fun q => q.name == h)).isSome :=
      List.find?_isSome.mpr ⟨p, hp, by simpa using hname⟩
    obtain ⟨q, hq⟩ := Option.isSome_iff_exists.mp hsome
    have hqname : q.name = h := by simpa using List.find?_some hq
    simp [resolvePreview, truthyOpt, hemp, hq, hqname]
  · intro files ⟨f, hf, hjpg⟩
    have hsome : (files.find? isJpgName).isSome :=
      List.find?_isSome.mpr ⟨f, hf, hjpg⟩
    obtain ⟨g, hg⟩ := Option.isSome_iff_exists.mp hsome
    exact ⟨g, by simp [find_preview_file, hg], List.find?_some hg⟩
  · intro files hnone ⟨f, hf, hpng⟩
    have hjn : files.find? isJpgName = none :=
      List.find?_eq_none.mpr (fun x hx => by simp [hnone x hx])
    have hsome : (files.find? isPngName).isSome :=
      List.find?_isSome.mpr ⟨f, hf, hpng⟩
    obtain ⟨g, hg⟩ := Option.isSome_iff_exists.mp hsome
    exact ⟨g, by simp [find_preview_file, hjn, hg], List.find?_some hg⟩
  · intro files hj hp
    have hjn : files.find? isJpgName = none :=
      List.find?_eq_none.mpr (fun x hx => by simp [hj x hx])
    have hpn : files.find? isPngName = none :=
      List.find?_eq_none.mpr (fun x hx => by simp [hp x hx])
    simp [find_preview_file, hjn, hpn]
  · intro st n files mf g hne hsel hr hg hp
    simp only [process_one_zip, hne, hsel, try_open, hr, hg, hp, Bool.false_eq_true,
      if_false, if_true, ite_true, ite_false]

/-- Witness for C6: the hint match, the JPEG-over-PNG fallback (a PNG earlier
in the list does not win over a later JPEG), and the fatal no-preview case on
a concrete archive. -/
theorem preview_resolution_spec_witness :
    resolvePreview
        [⟨[], "a.png".toList, [], true⟩, ⟨[], "b.jpg".toList, [], true⟩]
        (some "a.png".toList) = some "a.png".toList ∧
    (∃ g, find_preview_file ["z.png".toList, "b.JPG".toList] = some g ∧
      isJpgName g = true) ∧
    (process_one_zip
        (.intact "m.zip".toList
          [⟨[], "m.txt".toList, [], true⟩, ⟨[], "x.obj".toList, [], true⟩])
        (⟨[], [], [], [], []⟩ : BatchState).dirs).1 =
      .error (.runtimeError ("No preview image found (jpg/png) in ".toList ++
        "m.zip".toList)) :=
  ⟨preview_resolution_spec.1
      [⟨[], "a.png".toList, [], true⟩, ⟨[], "b.jpg".toList, [], true⟩]
      "a.png".toList (by decide)
      ⟨⟨[], "a.png".toList, [], true⟩, by decide, rfl⟩,
   preview_resolution_spec.2.1 ["z.png".toList, "b.JPG".toList]
      ⟨"b.JPG".toList, by decide, by decide⟩,
   preview_resolution_spec.2.2.2.2 ⟨[], [], [], [], []⟩ "m.zip".toList
      [⟨[], "m.txt".toList, [], true⟩, ⟨[], "x.obj".toList, [], true⟩]
      ⟨[], "m.txt".toList, [], true⟩ "x.obj".toList rfl rfl rfl rfl rfl⟩

/-! ### Archive discovery (claim C9) -/

theorem mem_walkSubs {d : PyStr} {sub : FsTree} {p : List PyStr} {f : PyStr} :
    ∀ {subs : List (PyStr × FsTree)}, (d, sub) ∈ subs → (p, f) ∈ walkFiles sub →
      (d :: p, f) ∈ walkSubs subs := by
  intro subs
  induction subs with
  | nil => intro h; cases h
  | cons s rest ih =>
    intro hmem hwalk
    rcases List.mem_cons.mp hmem with heq | hrest
    · rw [walkSubs]
      apply List.mem_append_left
      rw [← heq]
      exact List.mem_map.mpr ⟨(p, f), hwalk, rfl⟩
    · rw [walkSubs]
      exact List.mem_append_right _ (ih hrest hwalk)

/-- Claim C9: discovery walks the input directory recursively — every file of
every subtree (in particular of the `_processed` and `_failed` subdirectories
the loop itself creates) appears in the walk with its directory prefix, and a
file is in the discovered batch iff it is in the walk and its name
case-insensitively ends with `.zip`. -/
theorem discovery_recursive :
    (∀ (t : FsTree) (p : List PyStr) (f : PyStr),
      (p, f) ∈ walkFiles t → isZipName f = true → (p, f) ∈ discoverZips t) ∧
    (∀ (files : List PyStr) (subs : List (PyStr × FsTree)) (d : PyStr)
        (sub : FsTree) (p : List PyStr) (f : PyStr),
      (d, sub) ∈ subs → (p, f) ∈ walkFiles sub →
      (d :: p, f) ∈ walkFiles (.node files subs)) ∧
    (∀ (t : FsTree) (p : List PyStr) (f : PyStr),
      (p, f) ∈ discoverZips t → (p, f) ∈ walkFiles t ∧ isZipName f = true) := by
  refine ⟨?_, ?_, ?_⟩
  · intro t p f hmem hzip
    exact List.mem_filter.mpr ⟨hmem, hzip⟩
  · intro files subs d sub p f hmem hwalk
    rw [walkFiles]
    exact List.mem_append_right _ (mem_walkSubs hmem hwalk)
  · intro t p f hmem
    exact List.mem_filter.mp hmem

/-- Witness for C9: a zip inside the `_processed` subdirectory of the input
root is rediscovered by a later discovery run over that root. -/
theorem discovery_recursive_witness :
    (["_processed".toList], "old.zip".toList) ∈
      walkFiles (.node ["a.zip".toList]
        [("_processed".toList, .node ["old.zip".toList] [])]) ∧
    (["_processed".toList], "old.zip".toList) ∈
      discoverZips (.node ["a.zip".toList]
        [("_processed".toList, .node ["old.zip".toList] [])]) :=
  have hw : (["_processed".toList], "old.zip".toList) ∈
      walkFiles (.node ["a.zip".toList]
        [("_processed".toList, .node ["old.zip".toList] [])]) :=
    discovery_recursive.2.1 ["a.zip".toList]
      [("_processed".toList, .node ["old.zip".toList] [])]
      "_processed".toList (.node ["old.zip".toList] []) [] "old.zip".toList
      (by simp) (by simp [walkFiles, walkSubs])
  ⟨hw, discovery_recursive.1 _ _ _ hw (by decide)⟩

/-! ### Metadata parser: line and strip lemmas (claim C7) -/

theorem splitlines_no_crlf (text : PyStr) :
    ∀ l ∈ splitlines text, '\n' ∉ l ∧ '\r' ∉ l := by
  induction text using splitlines.induct with
  | case1 => intro l hl; cases hl
  | case2 rest ih =>
    intro l hl
    rcases List.mem_cons.mp hl with rfl | hl
    · simp
    · exact ih l hl
  | case3 rest hne ih =>
    intro l hl
    have hred : splitlines ('\r' :: rest) = [] :: splitlines rest := by
      cases rest with
      | nil => rfl
      | cons r2 t =>
        by_cases h2 : r2 = '\n'
        · exact absurd (by rw [h2]) (fun h => hne t h)
        · simp [splitlines, h2]
    rw [hred] at hl
    rcases List.mem_cons.mp hl with rfl | hl
    · simp
    · exact ih l hl
  | case4 rest ih =>
    intro l hl
    rcases List.mem_cons.mp hl with rfl | hl
    · simp
    · exact ih l hl
  | case5 c rest hrn hr hn hrest ih =>
    intro l hl
    have : splitlines (c :: rest) = [[c]] := by
      simp [splitlines, fun h => hr h, fun h => hn h, hrest]
    rw [this] at hl
    rcases List.mem_cons.mp hl with rfl | hl
    · constructor <;> simp <;> intro h <;> [exact hn h.symm; exact hr h.symm]
    · cases hl
  | case6 c rest hrn hr hn l0 ls0 hrest ih =>
    intro l hl
    have : splitlines (c :: rest) = (c :: l0) :: ls0 := by
      simp [splitlines, fun h => hr h, fun h => hn h, hrest]
    rw [this] at hl
    rcases List.mem_cons.mp hl with rfl | hl
    · have hmem : l0 ∈ splitlines rest := by rw [hrest]; exact List.mem_cons_self _ _
      have := ih l0 hmem
      constructor
      · intro hc
        rcases List.mem_cons.mp hc with hc | hc
        · exact hn hc.symm
        · exact this.1 hc
      · intro hc
        rcases List.mem_cons.mp hc with hc | hc
        · exact hr hc.symm
        · exact this.2 hc
    · exact ih l (by rw [hrest]; exact List.mem_cons_of_mem _ hl)

theorem mem_pyStrip {c : Char} {s : PyStr} (h : c ∈ pyStrip s) : c ∈ s := by
  simp only [pyStrip, List.mem_reverse] at h
  have h1 := (List.dropWhile_sublist (l := (s.dropWhile isSpc).reverse)
    (p := isSpc)).subset h
  rw [List.mem_reverse] at h1
  exact (List.dropWhile_sublist (l := s) (p := isSpc)).subset h1

theorem splitFirstColon_mem₁ : ∀ {s : PyStr} {c : Char},
    c ∈ (splitFirstColon s).1 → c ∈ s := by
  intro s
  induction s with
  | nil => intro c h; cases h
  | cons x rest ih =>
    intro c h
    by_cases hx : x = ':'
    · subst hx; simp [splitFirstColon] at h
    · simp only [splitFirstColon, hx] at h
      rcases List.mem_cons.mp h with rfl | h
      · exact List.mem_cons_self _ _
      · exact List.mem_cons_of_mem _ (ih h)

theorem splitFirstColon_mem₂ : ∀ {s : PyStr} {c : Char},
    c ∈ (splitFirstColon s).2 → c ∈ s := by
  intro s
  induction s with
  | nil => intro c h; cases h
  | cons x rest ih =>
    intro c h
    by_cases hx : x = ':'
    · subst hx
      simp only [splitFirstColon] at h
      exact List.mem_cons_of_mem _ h
    · simp only [splitFirstColon, hx] at h
      exact List.mem_cons_of_mem _ (ih h)

theorem splitFirstColon_no_colon : ∀ {s : PyStr}, ':' ∉ (splitFirstColon s).1 := by
  intro s
  induction s with
  | nil => simp [splitFirstColon]
  | cons x rest ih =>
    by_cases hx : x = ':'
    · subst hx; simp [splitFirstColon]
    · simp only [splitFirstColon, hx]
      intro h
      rcases List.mem_cons.mp h with h | h
      · exact hx h.symm
      · exact ih h

theorem splitFirstColon_of_append : ∀ (k v : PyStr), ':' ∉ k →
    splitFirstColon (k ++ ':' :: v) = (k, v) := by
  intro k
  induction k with
  | nil => intro v _; simp [splitFirstColon]
  | cons x rest ih =>
    intro v hk
    have hx : x ≠ ':' := fun h => hk (h ▸ List.mem_cons_self _ _)
    have hrest : ':' ∉ rest := fun h => hk (List.mem_cons_of_mem _ h)
    simp [splitFirstColon, hx, ih v hrest]

theorem headNotSpc_dropWhile (l : PyStr) :
    ∀ c, (l.dropWhile isSpc).head? = some c → isSpc c = false := by
  induction l with
  | nil => intro c h; cases h
  | cons x rest ih =>
    intro c h
    by_cases hx : isSpc x
    · rw [List.dropWhile_cons_of_pos hx] at h
      exact ih c h
    · rw [List.dropWhile_cons_of_neg hx] at h
      cases h
      simpa using hx

theorem dropWhile_eq_self_of_head {l : PyStr}
    (h : ∀ c, l.head? = some c → isSpc c = false) : l.dropWhile isSpc = l := by
  cases l with
  | nil => rfl
  | cons x rest =>
    have := h x rfl
    rw [List.dropWhile_cons_of_neg (by simp [this])]

theorem dropWhile_isSpc_idem (l : PyStr) :
    (l.dropWhile isSpc).dropWhile isSpc = l.dropWhile isSpc :=
  dropWhile_eq_self_of_head (headNotSpc_dropWhile l)

theorem pyStrip_eq_self_iff (l : PyStr) :
    pyStrip l = l ↔ l.dropWhile isSpc = l ∧ l.reverse.dropWhile isSpc = l.reverse := by
  constructor
  · intro h
    have hsub1 : (l.dropWhile isSpc).Sublist l := List.dropWhile_sublist isSpc
    have hsub2 : ((l.dropWhile isSpc).reverse.dropWhile isSpc).Sublist
        (l.dropWhile isSpc).reverse := List.dropWhile_sublist isSpc
    have hlen : ((l.dropWhile isSpc).reverse.dropWhile isSpc).length = l.length := by
      have := congrArg List.length h
      simpa [pyStrip] using this
    have hlen1 : (l.dropWhile isSpc).length = l.length := by
      have h1 := hsub1.length_le
      have h2 := hsub2.length_le
      simp only [List.length_reverse] at h2
      omega
    have heq1 : l.dropWhile isSpc = l := hsub1.eq_of_length hlen1
    refine ⟨heq1, ?_⟩
    rw [heq1] at hsub2 hlen
    exact hsub2.eq_of_length (by simpa using hlen)
  · intro ⟨h1, h2⟩
    rw [pyStrip, h1, h2, List.reverse_reverse]

theorem pyStrip_head_eq {l : PyStr} :
    ∀ c, (pyStrip l).head? = some c → isSpc c = false := by
  intro c hc
  have hsuf : ((l.dropWhile isSpc).reverse.dropWhile isSpc).IsSuffix
      (l.dropWhile isSpc).reverse := List.dropWhile_suffix _
  obtain ⟨t, ht⟩ := hsuf
  have hl : l.dropWhile isSpc =
      ((l.dropWhile isSpc).reverse.dropWhile isSpc).reverse ++ t.reverse := by
    have := congrArg List.reverse ht
    simpa [List.reverse_append] using this.symm
  rw [pyStrip] at hc
  cases hrev : ((l.dropWhile isSpc).reverse.dropWhile isSpc).reverse with
  | nil => rw [hrev] at hc; cases hc
  | cons x xs =>
    rw [hrev] at hc hl
    cases hc
    have : (l.dropWhile isSpc).head? = some c := by rw [hl]; rfl
    exact headNotSpc_dropWhile l c this

theorem pyStrip_idem (l : PyStr) : pyStrip (pyStrip l) = pyStrip l := by
  apply (pyStrip_eq_self_iff _).mpr
  constructor
  · exact dropWhile_eq_self_of_head pyStrip_head_eq
  · have : (pyStrip l).reverse = (l.dropWhile isSpc).reverse.dropWhile isSpc := by
      simp [pyStrip]
    rw [this]
    exact dropWhile_isSpc_idem _

theorem parseLine_wf {raw : PyStr} {k v : PyStr} (h : parseLine raw = some (k, v)) :
    pyStrip k = k ∧ pyStrip v = v ∧ ':' ∉ k ∧
    (∀ c ∈ k, c ∈ raw) ∧ (∀ c ∈ v, c ∈ raw) := by
  simp only [parseLine] at h
  split at h
  · simp at h
  · split at h
    · simp at h
    · split at h
      · simp at h
      · simp only [Option.some.injEq, Prod.mk.injEq] at h
        obtain ⟨hk, hv⟩ := h
        subst hk hv
        refine ⟨pyStrip_idem _, pyStrip_idem _, ?_, ?_, ?_⟩
        · intro hc
          exact splitFirstColon_no_colon (mem_pyStrip hc)
        · intro c hc
          have := splitFirstColon_mem₁ (mem_pyStrip hc)
          exact mem_pyStrip ((List.tail_sublist _).subset this)
        · intro c hc
          have := splitFirstColon_mem₂ (mem_pyStrip hc)
          exact mem_pyStrip ((List.tail_sublist _).subset this)

theorem dropWhile_head_not_spc {l : PyStr} {x : Char} {xs : PyStr}
    (hl : l = x :: xs) (hx : isSpc x = false) : l.dropWhile isSpc = l := by
  subst hl
  exact List.dropWhile_cons_of_neg (by simp [hx])

theorem dropWhile_hash (t : PyStr) : ('#' :: t).dropWhile isSpc = '#' :: t :=
  List.dropWhile_cons_of_neg (by decide)

theorem dropWhile_space (t : PyStr) : (' ' :: t).dropWhile isSpc = t.dropWhile isSpc :=
  List.dropWhile_cons_of_pos (by decide)

theorem dropWhile_colon (t : PyStr) : (':' :: t).dropWhile isSpc = ':' :: t :=
  List.dropWhile_cons_of_neg (by decide)

theorem stripped_reverse_head {v : PyStr} (hvs : pyStrip v = v) (hne : v ≠ []) :
    ∃ x xs, v.reverse = x :: xs ∧ isSpc x = false := by
  have h2 := ((pyStrip_eq_self_iff v).mp hvs).2
  cases hrev : v.reverse with
  | nil => exact absurd (by simpa using congrArg List.reverse hrev) hne
  | cons x xs =>
    refine ⟨x, xs, rfl, ?_⟩
    rw [hrev] at h2
    by_cases hx : isSpc x
    · exfalso
      rw [List.dropWhile_cons_of_pos hx] at h2
      have hlen := congrArg List.length h2
      have hle := (List.dropWhile_sublist isSpc (l := xs)).length_le
      simp only [List.length_cons] at hlen
      omega
    · simpa using hx

theorem parseLine_serialized {k v : PyStr} (hks : pyStrip k = k) (hvs : pyStrip v = v)
    (hkc : ':' ∉ k) :
    parseLine ('#' :: k ++ ':' :: ' ' :: v) = some (k, v) := by
  have hstrip : pyStrip ('#' :: k ++ ':' :: ' ' :: v) =
      if v.isEmpty then '#' :: k ++ [':'] else '#' :: k ++ ':' :: ' ' :: v := by
    cases hv : v with
    | nil =>
      simp only [List.isEmpty_nil, if_true]
      rw [show ('#' :: k ++ ':' :: ' ' :: ([] : PyStr)) =
          '#' :: (k ++ [':', ' ']) by simp]
      rw [pyStrip, dropWhile_hash]
      have hrev : ('#' :: (k ++ [':', ' '])).reverse =
          ' ' :: ':' :: (k.reverse ++ ['#']) := by simp
      rw [hrev, dropWhile_space, dropWhile_colon]
      simp
    | cons c vt =>
      rw [if_neg (by simp)]
      rw [← hv]
      apply (pyStrip_eq_self_iff _).mpr
      constructor
      · rw [show ('#' :: k ++ ':' :: ' ' :: v) = '#' :: (k ++ ':' :: ' ' :: v) by simp]
        exact dropWhile_hash _
      · obtain ⟨x, xs, hrev, hx⟩ := stripped_reverse_head hvs (by rw [hv]; simp)
        have hrev2 : ('#' :: k ++ ':' :: ' ' :: v).reverse =
            x :: (xs ++ [' ', ':'] ++ ('#' :: k).reverse) := by
          simp [hrev]
        exact dropWhile_head_not_spc hrev2 hx
  by_cases hv : v.isEmpty
  · have hvnil : v = [] := by simpa using hv
    subst hvnil
    simp only [List.isEmpty_nil, if_true] at hstrip
    simp only [parseLine, hstrip]
    rw [if_neg (by simp), if_neg (by simp), if_neg (by simp)]
    have htail : ('#' :: k ++ [':']).tail = k ++ ':' :: [] := by simp
    rw [htail, splitFirstColon_of_append k [] hkc]
    simp only [Option.some.injEq, Prod.mk.injEq]
    exact ⟨hks, rfl⟩
  · rw [if_neg hv] at hstrip
    have hvne : v ≠ [] := by
      intro h; rw [h] at hv; exact hv rfl
    simp only [parseLine, hstrip]
    rw [if_neg (by simp), if_neg (by simp), if_neg (by simp)]
    have htail : ('#' :: k ++ ':' :: ' ' :: v).tail = k ++ ':' :: (' ' :: v) := by simp
    rw [htail, splitFirstColon_of_append k (' ' :: v) hkc]
    have hsv : pyStrip (' ' :: v) = v := by
      rw [pyStrip, dropWhile_space, ((pyStrip_eq_self_iff v).mp hvs).1,
        ((pyStrip_eq_self_iff v).mp hvs).2, List.reverse_reverse]
    simp only [Option.some.injEq, Prod.mk.injEq]
    exact ⟨hks, hsv⟩

theorem splitlines_single : ∀ (l : PyStr), l ≠ [] → '\n' ∉ l → '\r' ∉ l →
    splitlines l = [l] := by
  intro l
  induction l with
  | nil => intro h; exact absurd rfl h
  | cons c t ih =>
    intro _ hn hr
    have hcn : ¬c = '\n' := fun h => hn (h ▸ List.mem_cons_self _ _)
    have hcr : ¬c = '\r' := fun h => hr (h ▸ List.mem_cons_self _ _)
    cases t with
    | nil => simp [splitlines, hcn, hcr]
    | cons c2 t2 =>
      have ht : splitlines (c2 :: t2) = [c2 :: t2] :=
        ih (by simp) (fun h => hn (List.mem_cons_of_mem _ h))
          (fun h => hr (List.mem_cons_of_mem _ h))
      simp [splitlines, hcn, hcr, ht]

theorem splitlines_append_newline : ∀ (l : PyStr), '\n' ∉ l → '\r' ∉ l →
    ∀ rest, splitlines (l ++ '\n' :: rest) = l :: splitlines rest := by
  intro l
  induction l with
  | nil => intro _ _ rest; simp [splitlines]
  | cons c t ih =>
    intro hn hr rest
    have hcn : ¬c = '\n' := fun h => hn (h ▸ List.mem_cons_self _ _)
    have hcr : ¬c = '\r' := fun h => hr (h ▸ List.mem_cons_self _ _)
    have ht := ih (fun h => hn (List.mem_cons_of_mem _ h))
      (fun h => hr (List.mem_cons_of_mem _ h)) rest
    simp [splitlines, hcn, hcr, ht]

theorem splitlines_joinLines : ∀ (lines : List PyStr),
    (∀ l ∈ lines, l ≠ [] ∧ '\n' ∉ l ∧ '\r' ∉ l) →
    splitlines (joinLines lines) = lines := by
  intro lines
  induction lines with
  | nil => intro _; rfl
  | cons l ls ih =>
    intro h
    obtain ⟨hne, hn, hr⟩ := h l (List.mem_cons_self _ _)
    cases ls with
    | nil => exact splitlines_single l hne hn hr
    | cons l2 ls2 =>
      have : joinLines (l :: l2 :: ls2) = l ++ '\n' :: joinLines (l2 :: ls2) := rfl
      rw [this, splitlines_append_newline l hn hr,
        ih (fun x hx => h x (List.mem_cons_of_mem _ hx))]

theorem filterMap_parseLine_serialized :
    ∀ (m : List (PyStr × PyStr)), (∀ p ∈ m, WfPair p) →
    (m.map (fun p => '#' :: p.1 ++ ':' :: ' ' :: p.2)).filterMap parseLine = m := by
  intro m
  induction m with
  | nil => intro _; rfl
  | cons p rest ih =>
    intro hwf
    obtain ⟨hs1, hs2, hc, _⟩ := hwf p (List.mem_cons_self _ _)
    simp only [List.map_cons, List.filterMap_cons, parseLine_serialized hs1 hs2 hc]
    rw [ih (fun q hq => hwf q (List.mem_cons_of_mem _ hq))]

theorem metaPairs_serialize (m : List (PyStr × PyStr)) (hwf : ∀ p ∈ m, WfPair p) :
    metaPairs (serializeMeta m) = m := by
  have hlines : ∀ l ∈ m.map (fun p => '#' :: p.1 ++ ':' :: ' ' :: p.2),
      l ≠ [] ∧ '\n' ∉ l ∧ '\r' ∉ l := by
    intro l hl
    obtain ⟨p, hp, rfl⟩ := List.mem_map.mp hl
    obtain ⟨_, _, _, hk1, hk2, hv1, hv2⟩ := hwf p hp
    refine ⟨by simp, ?_, ?_⟩
    · intro hc
      rcases (by simpa using hc : '\n' ∈ p.1 ∨ '\n' ∈ p.2) with hc | hc
      · exact hk1 hc
      · exact hv1 hc
    · intro hc
      rcases (by simpa using hc : '\r' ∈ p.1 ∨ '\r' ∈ p.2) with hc | hc
      · exact hk2 hc
      · exact hv2 hc
  rw [metaPairs, serializeMeta, splitlines_joinLines _ hlines,
    filterMap_parseLine_serialized m hwf]

theorem upsert_of_keys_not_mem {d : List (PyStr × PyStr)} {k v : PyStr}
    (h : ∀ p ∈ d, p.1 ≠ k) : upsert d k v = d ++ [(k, v)] := by
  simp only [upsert]
  rw [if_neg]
  simp only [List.any_eq_true, beq_iff_eq, not_exists]
  rintro p ⟨hp, hpk⟩
  exact h p hp hpk

theorem foldl_upsert_of_nodup : ∀ (m d : List (PyStr × PyStr)),
    ((d ++ m).map Prod.fst).Nodup →
    m.foldl (fun d p => upsert d p.1 p.2) d = d ++ m := by
  intro m
  induction m with
  | nil => intro d _; simp
  | cons p rest ih =>
    intro d hnd
    have hfresh : ∀ q ∈ d, q.1 ≠ p.1 := by
      intro q hq hqp
      have h1 : ((d.map Prod.fst) ++ ((p :: rest).map Prod.fst)).Nodup := by
        simpa using hnd
      exact (List.disjoint_of_nodup_append h1)
        (List.mem_map.mpr ⟨q, hq, hqp⟩) (by simp)
    rw [List.foldl_cons, upsert_of_keys_not_mem hfresh]
    have hnd2 : (((d ++ [p]) ++ rest).map Prod.fst).Nodup := by simpa using hnd
    rw [ih (d ++ [p]) hnd2]
    simp

theorem metaPairs_wf (text : PyStr) : ∀ p ∈ metaPairs text, WfPair p := by
  intro p hp
  obtain ⟨raw, hraw, hparse⟩ := List.mem_filterMap.mp hp
  obtain ⟨hn, hr⟩ := splitlines_no_crlf text raw hraw
  obtain ⟨k, v⟩ := p
  obtain ⟨hs1, hs2, hc, hk, hv⟩ := parseLine_wf hparse
  exact ⟨hs1, hs2, hc,
    fun hmem => hn (hk _ hmem), fun hmem => hr (hk _ hmem),
    fun hmem => hn (hv _ hmem), fun hmem => hr (hv _ hmem)⟩

theorem foldl_upsert_invariant : ∀ (pairs d : List (PyStr × PyStr)),
    (∀ p ∈ pairs, WfPair p) → (∀ p ∈ d, WfPair p) → (d.map Prod.fst).Nodup →
    (∀ p ∈ pairs.foldl (fun d p => upsert d p.1 p.2) d, WfPair p) ∧
    ((pairs.foldl (fun d p => upsert d p.1 p.2) d).map Prod.fst).Nodup := by
  intro pairs
  induction pairs with
  | nil => intro d _ hd hnd; exact ⟨hd, hnd⟩
  | cons p rest ih =>
    intro d hpairs hd hnd
    have hpwf : WfPair p := hpairs p (List.mem_cons_self _ _)
    have hrest : ∀ q ∈ rest, WfPair q :=
      fun q hq => hpairs q (List.mem_cons_of_mem _ hq)
    rw [List.foldl_cons]
    apply ih _ hrest
    · intro q hq
      by_cases hmem : d.any (fun r => r.1 == p.1)
      · simp only [upsert, if_pos hmem] at hq
        obtain ⟨r, hr, hrq⟩ := List.mem_map.mp hq
        by_cases hrk : (r.1 == p.1) = true
        · rw [if_pos hrk] at hrq
          rw [← hrq]
          exact hpwf
        · rw [if_neg hrk] at hrq
          exact hrq ▸ hd r hr
      · simp only [upsert, if_neg hmem] at hq
        rcases List.mem_append.mp hq with hq | hq
        · exact hd q hq
        · rcases List.mem_cons.mp hq with rfl | hq
          · exact hpwf
          · cases hq
    · by_cases hmem : d.any (fun r => r.1 == p.1)
      · simp only [upsert, if_pos hmem]
        have hkeys : (d.map (fun r => if r.1 == p.1 then (p.1, p.2) else r)).map
            Prod.fst = d.map Prod.fst := by
          rw [List.map_map]
          apply List.map_congr_left
          intro r hr
          by_cases hrk : (r.1 == p.1) = true
          · simp only [Function.comp_apply, if_pos hrk]
            exact (beq_iff_eq.mp hrk).symm
          · simp only [Function.comp_apply, if_neg hrk]
        rw [hkeys]
        exact hnd
      · simp only [upsert, if_neg hmem]
        rw [List.map_append]
        rw [List.nodup_append]
        refine ⟨hnd, by simp, ?_⟩
        intro x hx
        simp only [List.map_cons, List.map_nil, List.mem_singleton]
        intro hxp
        obtain ⟨r, hr, hrx⟩ := List.mem_map.mp hx
        exact hmem (List.any_eq_true.mpr ⟨r, hr, beq_iff_eq.mpr (by rw [hrx, hxp])⟩)

theorem parse_wf_nodup (text : PyStr) :
    (∀ p ∈ parse_metadata_from_text text, WfPair p) ∧
    ((parse_metadata_from_text text).map Prod.fst).Nodup :=
  foldl_upsert_invariant (metaPairs text) [] (metaPairs_wf text)
    (fun _ h => absurd h (List.not_mem_nil _)) List.nodup_nil

theorem parse_serialize_parse (text : PyStr) :
    parse_metadata_from_text (serializeMeta (parse_metadata_from_text text)) =
      parse_metadata_from_text text := by
  obtain ⟨hwf, hnd⟩ := parse_wf_nodup text
  conv_lhs => rw [parse_metadata_from_text]
  rw [metaPairs_serialize _ hwf]
  exact foldl_upsert_of_nodup _ [] (by simpa using hnd)

theorem lookupMeta_cons (x : PyStr × PyStr) (l : List (PyStr × PyStr)) (k : PyStr) :
    lookupMeta (x :: l) k =
      if (x.1 == k) = true then some x.2 else lookupMeta l k := by
  simp only [lookupMeta, List.find?_cons]
  cases h : (x.1 == k) <;> simp [h]

theorem lookup_map_update_self : ∀ (d : List (PyStr × PyStr)) (k v : PyStr),
    (∃ r ∈ d, r.1 = k) →
    lookupMeta (d.map (fun r => if r.1 == k then (k, v) else r)) k = some v := by
  intro d k v
  induction d with
  | nil => rintro ⟨r, hr, _⟩; cases hr
  | cons r rest ih =>
    rintro ⟨q, hq, hqk⟩
    rw [List.map_cons]
    by_cases hrk : (r.1 == k) = true
    · rw [if_pos hrk, lookupMeta_cons]
      simp
    · rcases List.mem_cons.mp hq with rfl | hq
      · exact absurd (beq_iff_eq.mpr hqk) hrk
      · rw [if_neg hrk, lookupMeta_cons, if_neg hrk]
        exact ih ⟨q, hq, hqk⟩

theorem lookup_map_update_other : ∀ (d : List (PyStr × PyStr)) (k' v k : PyStr),
    k ≠ k' →
    lookupMeta (d.map (fun r => if r.1 == k' then (k', v) else r)) k =
      lookupMeta d k := by
  intro d k' v k hne
  induction d with
  | nil => rfl
  | cons r rest ih =>
    rw [List.map_cons, lookupMeta_cons r rest k]
    by_cases hrk : (r.1 == k') = true
    · have hr1 : r.1 = k' := beq_iff_eq.mp hrk
      have h1 : (k' == k) = false := by
        simp only [beq_eq_false_iff_ne, ne_eq]
        exact fun h => hne h.symm
      have h2 : (r.1 == k) = false := by rw [hr1]; exact h1
      rw [if_pos hrk, lookupMeta_cons, h2, ih]
      simp [h1]
    · rw [if_neg hrk, lookupMeta_cons, ih]

theorem lookup_upsert (d : List (PyStr × PyStr)) (k' v k : PyStr) :
    lookupMeta (upsert d k' v) k = if k = k' then some v else lookupMeta d k := by
  by_cases hmem : (d.any fun r => r.1 == k') = true
  · simp only [upsert, if_pos hmem]
    by_cases hk : k = k'
    · subst hk
      rw [if_pos rfl]
      obtain ⟨r, hr, hrk⟩ := List.any_eq_true.mp hmem
      exact lookup_map_update_self d k v ⟨r, hr, beq_iff_eq.mp hrk⟩
    · rw [if_neg hk]
      exact lookup_map_update_other d k' v k hk
  · simp only [upsert, if_neg hmem]
    have hfresh : ∀ r ∈ d, r.1 ≠ k' := by
      intro r hr hrk
      exact hmem (List.any_eq_true.mpr ⟨r, hr, beq_iff_eq.mpr hrk⟩)
    by_cases hk : k = k'
    · subst hk
      rw [if_pos rfl]
      have hnone : d.find? (fun p => p.1 == k) = none :=
        List.find?_eq_none.mpr
          (fun r hr => by simpa using hfresh r hr)
      simp [lookupMeta, List.find?_append, hnone, List.find?_cons]
    · rw [if_neg hk]
      have h1 : ((k', v).1 == k) = false := by
        simp only [beq_eq_false_iff_ne, ne_eq]
        exact fun h => hk h.symm
      simp only [lookupMeta, List.find?_append, List.find?_cons, h1]
      cases hf : d.find? (fun p => p.1 == k) <;> simp [Option.orElse]

theorem lookup_foldl : ∀ (pairs : List (PyStr × PyStr)) (d : List (PyStr × PyStr))
    (k : PyStr),
    lookupMeta (pairs.foldl (fun d p => upsert d p.1 p.2) d) k =
      (lastVal pairs k).or (lookupMeta d k) := by
  intro pairs
  induction pairs with
  | nil => intro d k; simp [lastVal, lookupMeta]
  | cons p rest ih =>
    intro d k
    rw [List.foldl_cons, ih]
    have hlv : lastVal (p :: rest) k =
        (lastVal rest k).or (if (p.1 == k) = true then some p.2 else none) := by
      simp only [lastVal, List.reverse_cons, List.find?_append]
      cases hf : (rest.reverse.find? fun q => q.1 == k) with
      | some q => simp [Option.or]
      | none =>
        cases hpk : (p.1 == k) <;> simp [List.find?_cons, hpk, Option.or]
    rw [hlv, lookup_upsert, Option.or_assoc]
    congr 1
    by_cases hk : k = p.1
    · subst hk
      simp [Option.or]
    · have : (p.1 == k) = false := by
        simp only [beq_eq_false_iff_ne, ne_eq]
        exact fun h => hk h.symm
      simp [hk, this, Option.or]

/-- Claim C7: the parser's output, read through `get`, is exactly the
last-occurrence-wins mapping of the qualifying `#Key: Value` lines (all other
lines are ignored, and parsing is total — no error); and re-serializing the
parsed map as `#Key: Value` lines and re-parsing yields the same map. -/
theorem metadata_parser_spec :
    (∀ (text k : PyStr),
      lookupMeta (parse_metadata_from_text text) k = lastVal (metaPairs text) k) ∧
    (∀ text : PyStr,
      parse_metadata_from_text (serializeMeta (parse_metadata_from_text text)) =
        parse_metadata_from_text text) := by
  constructor
  · intro text k
    rw [parse_metadata_from_text, lookup_foldl]
    simp [lookupMeta]
  · exact parse_serialize_parse

end Importer
